import Mathlib

/-!
Shallow embedding of the histogram / cut engine of `spsevb_cebra_plotter`.

Numeric model: the Rust code computes with `f64`; all arithmetic that the
verified claims exercise (bin-index computation, range tests, polygon
ray casting) is modelled over `ℚ`, which agrees with `f64` on the exact
decimal inputs used by the concrete test vectors.  Machine counters
(`u32`, `usize`) are modelled as `Nat`; the `u32::MAX` / `u32::MIN`
initial values of `Histogram2D.min_count` / `max_count` are kept as the
literals `4294967295` / `0`.
-/

namespace SpsevbCebra

/-- Source: `src/utils/histogram1d.rs`: `pub struct Histogram` with dense `Vec<u32>`
bins, a `(f64, f64)` range and a precomputed bin width. -/
structure Histogram where
  bins : List Nat
  range : ℚ × ℚ
  bin_width : ℚ
deriving Repr, DecidableEq

namespace Histogram

/-- Source: `Histogram::new(number_of_bins, range)` — note the source performs no
validation at all: zero bins and inverted ranges are accepted as-is.
(The `f64` division `(range.1 - range.0) / 0.0` yields an infinity; over `ℚ`
division by zero yields `0`.  No claim below depends on the `bin_width`
of a zero-bin histogram.) -/
def new (number_of_bins : Nat) (range : ℚ × ℚ) : Histogram :=
  { bins := List.replicate number_of_bins 0
    range := range
    bin_width := (range.2 - range.1) / (number_of_bins : ℚ) }

/-- Source: `Histogram::add(value)`: half-open range test, truncating cast to
`usize` (equal to the floor here because the operand is non-negative in
this branch), bounds-checked increment, silent drop otherwise. -/
def add (h : Histogram) (value : ℚ) : Histogram :=
  if h.range.1 ≤ value ∧ value < h.range.2 then
    let index : Nat := (⌊(value - h.range.1) / h.bin_width⌋).toNat
    if index < h.bins.length then
      { h with bins := h.bins.set index (h.bins.getD index 0 + 1) }
    else h
  else h

/-- Repeated `Histogram::add`, as the data-ingestion loop performs it. -/
def addList (h : Histogram) (values : List ℚ) : Histogram :=
  values.foldl add h

/-- Source: `Histogram::get_bin(x)`: `None` outside the closed range
`[range.0, range.1]`, otherwise the floor of `(x - range.0) / bin_width`
cast to `usize`. -/
def get_bin (h : Histogram) (x : ℚ) : Option Nat :=
  if x < h.range.1 ∨ x > h.range.2 then none
  else some (⌊(x - h.range.1) / h.bin_width⌋).toNat

/-- The `for bin in start..=end` loop body of
`Histogram::integral_in_range_bin`, structurally recursive in the number
of remaining loop iterations; the `else break` arm is the second branch. -/
def integralLoop (bins : List Nat) : Nat → Nat → Nat
  | _, 0 => 0
  | s, k + 1 =>
    if s < bins.length then bins.getD s 0 + integralLoop bins (s + 1) k
    else 0

/-- Source: `Histogram::integral_in_range_bin(start_bin, end_bin)`: sums the bins
from `start_bin` to `end_bin` inclusive, exiting early once the index
falls outside the bin vector. -/
def integral_in_range_bin (h : Histogram) (start_bin end_bin : Nat) : Nat :=
  integralLoop h.bins start_bin (end_bin + 1 - start_bin)

/-- Source: `Histogram::integral_in_range_x(start_x, end_x)`. -/
def integral_in_range_x (h : Histogram) (start_x end_x : ℚ) : Nat :=
  let start_bin := (h.get_bin start_x).getD 0
  let end_bin := (h.get_bin end_x).getD (h.bins.length - 1)
  h.integral_in_range_bin start_bin end_bin

/-- The weighted-bin-center accumulation loop shared by
`mean_in_range_x` and `stdev_in_range_x`: accumulates
`Σ bins[i] * f(center i)` and `Σ bins[i]` over the in-bounds part of
`start..=end`. -/
def weightedLoop (h : Histogram) (f : ℚ → ℚ) : Nat → Nat → ℚ × Nat
  | _, 0 => (0, 0)
  | s, k + 1 =>
    if s < h.bins.length then
      let center := h.range.1 + ((s : ℚ) + 1/2) * h.bin_width
      let rest := weightedLoop h f (s + 1) k
      ((h.bins.getD s 0 : ℚ) * f center + rest.1, h.bins.getD s 0 + rest.2)
    else (0, 0)

/-- Source: `Histogram::mean_in_range_x(start_x, end_x)`. -/
def mean_in_range_x (h : Histogram) (start_x end_x : ℚ) : ℚ :=
  let start_bin := (h.get_bin start_x).getD 0
  let end_bin := (h.get_bin end_x).getD (h.bins.length - 1)
  if start_bin > end_bin then 0
  else
    let acc := weightedLoop h (fun c => c) start_bin (end_bin + 1 - start_bin)
    if acc.2 = 0 then 0 else acc.1 / (acc.2 : ℚ)

/-- Source: `Histogram::stdev_in_range_x(start_x, end_x)`, up to the final `f64`
square root: this definition returns the radicand (the population
variance), since `√` does not exist on `ℚ`; the source returns its
square root.  No claim below depends on the third statistics component. -/
def stdevSq_in_range_x (h : Histogram) (start_x end_x : ℚ) : ℚ :=
  let start_bin := (h.get_bin start_x).getD 0
  let end_bin := (h.get_bin end_x).getD (h.bins.length - 1)
  if start_bin > end_bin then 0
  else
    let mean := h.mean_in_range_x start_x end_x
    let acc := weightedLoop h (fun c => (c - mean) * (c - mean)) start_bin
      (end_bin + 1 - start_bin)
    if acc.2 = 0 then 0 else acc.1 / (acc.2 : ℚ)

/-- Source: `Histogram::stats(start_x, end_x) = (integral, mean, stdev)` (third
component modelled by its square, see `stdevSq_in_range_x`). -/
def stats (h : Histogram) (start_x end_x : ℚ) : Nat × ℚ × ℚ :=
  (h.integral_in_range_x start_x end_x,
   h.mean_in_range_x start_x end_x,
   h.stdevSq_in_range_x start_x end_x)

end Histogram

/-! ## Histogram2D (`src/utils/histogram2d.rs`)

The sparse bin store `FnvHashMap<(usize, usize), u32>` is modelled as an
association list with unique keys; iteration order is irrelevant to every
claim below. -/

/-- The sparse bin table of a `Histogram2D`. -/
def Bins2D := List ((Nat × Nat) × Nat)

instance : DecidableEq Bins2D := by unfold Bins2D; infer_instance

/-- Hash-map read with "absent key ≡ count 0" (`or_insert(0)` seeds 0). -/
def getBinCount : Bins2D → Nat × Nat → Nat
  | [], _ => 0
  | (k', v) :: rest, k => if k' = k then v else getBinCount rest k

/-- Hash-map write: replace the value stored at `k`, inserting if absent. -/
def setBinCount : Bins2D → Nat × Nat → Nat → Bins2D
  | [], k, v => [(k, v)]
  | (k', v') :: rest, k, v =>
    if k' = k then (k, v) :: rest else (k', v') :: setBinCount rest k v

/-- Source: `src/utils/histogram2d.rs`: `pub struct Histogram2D`. -/
structure Histogram2D where
  bins : Bins2D
  x_range : ℚ × ℚ
  y_range : ℚ × ℚ
  x_bin_width : ℚ
  y_bin_width : ℚ
  min_count : Nat
  max_count : Nat
deriving DecidableEq

namespace Histogram2D

/-- Source: `Histogram2D::new(x_bins, x_range, y_bins, y_range)` — again no
validation; `min_count` starts at `u32::MAX`, `max_count` at `u32::MIN`. -/
def new (x_bins : Nat) (x_range : ℚ × ℚ) (y_bins : Nat) (y_range : ℚ × ℚ) :
    Histogram2D :=
  { bins := []
    x_range := x_range
    y_range := y_range
    x_bin_width := (x_range.2 - x_range.1) / (x_bins : ℚ)
    y_bin_width := (y_range.2 - y_range.1) / (y_bins : ℚ)
    min_count := 4294967295
    max_count := 0 }

/-- Source: `Histogram2D::fill(x_value, y_value)`: half-open range test on both
axes, truncating casts for the bin indices, `entry(..).or_insert(0)`
followed by `+= 1`, then the two conditional extremum updates on the
just-incremented count. -/
def fill (h : Histogram2D) (x_value y_value : ℚ) : Histogram2D :=
  if h.x_range.1 ≤ x_value ∧ x_value < h.x_range.2 ∧
      h.y_range.1 ≤ y_value ∧ y_value < h.y_range.2 then
    let x_index : Nat := (⌊(x_value - h.x_range.1) / h.x_bin_width⌋).toNat
    let y_index : Nat := (⌊(y_value - h.y_range.1) / h.y_bin_width⌋).toNat
    let count : Nat := getBinCount h.bins (x_index, y_index) + 1
    { h with
      bins := setBinCount h.bins (x_index, y_index) count
      min_count := if count < h.min_count then count else h.min_count
      max_count := if h.max_count < count then count else h.max_count }
  else h

/-- Repeated `Histogram2D::fill`, as a bulk ingestion pass performs it. -/
def fillList (h : Histogram2D) (points : List (ℚ × ℚ)) : Histogram2D :=
  points.foldl (fun acc p => acc.fill p.1 p.2) h

end Histogram2D

/-- The maximum stored count of a sparse bin table (0 when empty). -/
def maxBinCount (bins : Bins2D) : Nat :=
  bins.foldr (fun kv acc => max kv.2 acc) 0

/-- Stated from the spec's words, for comparison with the source's
`min_count` field: "the minimum count over all populated (present-key)
bins" (returning the `u32::MAX` seed when no bin is populated). -/
def specMinCount (bins : Bins2D) : Nat :=
  bins.foldr (fun kv acc => min kv.2 acc) 4294967295

/-- The running-extrema relationship `Histogram2D::fill` actually
maintains: before the first in-range sample the extrema hold their
`u32::MAX` / `u32::MIN` seeds; afterwards `max_count` tracks the maximum
stored count while `min_count` is stuck at `1` (the first post-increment
count ever observed — counts never return below `1`). -/
def extremaInv (h : Histogram2D) : Prop :=
  (h.bins = [] ∧ h.min_count = 4294967295 ∧ h.max_count = 0) ∨
  (h.bins ≠ [] ∧ h.min_count = 1 ∧ h.max_count = maxBinCount h.bins)

/-! ## EditableEguiPolygon (`src/utils/egui_polygon.rs`) -/

/-- Source: `src/utils/egui_polygon.rs`: the serialized polygon structure (all four
fields carry serde `Serialize`/`Deserialize`). -/
structure EditableEguiPolygon where
  vertices : List (ℚ × ℚ)
  selected_vertex_index : Option Nat
  selected_x_column : Option String
  selected_y_column : Option String
deriving DecidableEq

namespace EditableEguiPolygon

/-- Source: `EditableEguiPolygon::new()`. -/
def new : EditableEguiPolygon :=
  { vertices := []
    selected_vertex_index := none
    selected_x_column := none
    selected_y_column := none }

/-- Source: `EditableEguiPolygon::add_new_vertex(coordinates)`: `Vec::push`. -/
def add_new_vertex (p : EditableEguiPolygon) (c : ℚ × ℚ) :
    EditableEguiPolygon :=
  { p with vertices := p.vertices ++ [c] }

end EditableEguiPolygon

/-! ### Point-in-polygon containment

`to_geo_polygon` hands the vertex list to the external `geo` crate
(`Polygon::new(LineString::from(coords), vec![])`, which closes the
exterior ring) and `contains` performs the standard even-odd ray-casting
point-in-polygon query.  The external crate's query is modelled here
exactly in that documented form; all of it is total, so "never errors"
holds by construction. -/

/-- The exterior ring that `geo::Polygon::new` builds: the vertex list,
closed by appending the first vertex when the list is not already
closed. -/
def closeRing (vs : List (ℚ × ℚ)) : List (ℚ × ℚ) :=
  match vs with
  | [] => []
  | v :: _ => if vs.getLast? = some v then vs else vs ++ [v]

/-- The edges of a ring: consecutive vertex pairs. -/
def ringEdges (ring : List (ℚ × ℚ)) : List ((ℚ × ℚ) × (ℚ × ℚ)) :=
  ring.zip ring.tail

/-- One step of even-odd ray casting: does the horizontal ray from `p`
toward `+x` cross the edge `e`? -/
def crossesEdge (p : ℚ × ℚ) (e : (ℚ × ℚ) × (ℚ × ℚ)) : Bool :=
  let a := e.1
  let b := e.2
  (decide (a.2 > p.2) != decide (b.2 > p.2)) &&
    decide (p.1 < (b.1 - a.1) * (p.2 - a.2) / (b.2 - a.2) + a.1)

/-- Even-odd ray-casting containment over the closed exterior ring —
the model of `to_geo_polygon(..).contains(&Point::new(x, y))`. -/
def raycastContains (vs : List (ℚ × ℚ)) (p : ℚ × ℚ) : Bool :=
  (ringEdges (closeRing vs)).countP (fun e => crossesEdge p e) % 2 == 1

/-- Modelled from the spec: `EditableEguiPolygon::is_inside(x, y)` is
called in `CutHandler::filter_lf_with_cuts` (src/utils/cut.rs) but has no
definition under `src/`; per the spec (§4.3, "`contains(x, y) -> bool`:
standard point-in-polygon test") it is the containment query of the cut's
polygon. -/
def EditableEguiPolygon.is_inside (p : EditableEguiPolygon) (x y : ℚ) :
    Bool :=
  raycastContains p.vertices (x, y)

/-! ### Persisted cut format (`save_cut_to_json` / `load_cut_from_json`)

`serde_json::to_string` / `serde_json::from_reader` on the derived
`Serialize`/`Deserialize` implementations, modelled at the level of the
JSON document tree (the text layer of `serde_json` is the external
library's parser/printer pair). -/

/-- A JSON document. -/
inductive Json where
  | null : Json
  | num (q : ℚ) : Json
  | str (s : String) : Json
  | arr (items : List Json) : Json
  | obj (fields : List (String × Json)) : Json

/-- Field lookup in a JSON object. -/
def jsonField : List (String × Json) → String → Option Json
  | [], _ => none
  | (k, v) :: rest, name => if k = name then some v else jsonField rest name

/-- serde: `Option<T>` serializes as `null` / the bare value. -/
def encOptNat : Option Nat → Json
  | none => Json.null
  | some n => Json.num n

/-- serde: `Option<String>` serializes as `null` / the bare string. -/
def encOptStr : Option String → Json
  | none => Json.null
  | some s => Json.str s

/-- serde: `[f64; 2]` serializes as a two-element array. -/
def encVertex (v : ℚ × ℚ) : Json :=
  Json.arr [Json.num v.1, Json.num v.2]

/-- Derived `Serialize` for `EditableEguiPolygon`: a four-field object in
declaration order. -/
def EditableEguiPolygon.toJson (p : EditableEguiPolygon) : Json :=
  Json.obj
    [("vertices", Json.arr (p.vertices.map encVertex)),
     ("selected_vertex_index", encOptNat p.selected_vertex_index),
     ("selected_x_column", encOptStr p.selected_x_column),
     ("selected_y_column", encOptStr p.selected_y_column)]

/-- Decode a JSON number. -/
def decNum : Json → Option ℚ
  | Json.num q => some q
  | _ => none

/-- Decode a `[f64; 2]` vertex. -/
def decVertex : Json → Option (ℚ × ℚ)
  | Json.arr [a, b] => do
    let x ← decNum a
    let y ← decNum b
    pure (x, y)
  | _ => none

/-- Decode an `Option<usize>`. -/
def decOptNat : Json → Option (Option Nat)
  | Json.null => some none
  | Json.num q => if q.den = 1 ∧ 0 ≤ q.num then some (some q.num.toNat) else none
  | _ => none

/-- Decode an `Option<String>`. -/
def decOptStr : Json → Option (Option String)
  | Json.null => some none
  | Json.str s => some (some s)
  | _ => none

/-- Decode a sequence of vertices (serde sequence decoding). -/
def decVertexList : List Json → Option (List (ℚ × ℚ))
  | [] => some []
  | j :: rest => do
    let v ← decVertex j
    let vs ← decVertexList rest
    pure (v :: vs)

/-- Decode the vertex array. -/
def decVertices : Json → Option (List (ℚ × ℚ))
  | Json.arr items => decVertexList items
  | _ => none

/-- Derived `Deserialize` for `EditableEguiPolygon`: read the four fields
back out of the object. -/
def EditableEguiPolygon.fromJson (j : Json) :
    Option EditableEguiPolygon :=
  match j with
  | Json.obj fields => do
    let vj ← jsonField fields "vertices"
    let vs ← decVertices vj
    let ij ← jsonField fields "selected_vertex_index"
    let idx ← decOptNat ij
    let xj ← jsonField fields "selected_x_column"
    let xc ← decOptStr xj
    let yj ← jsonField fields "selected_y_column"
    let yc ← decOptStr yj
    pure ⟨vs, idx, xc, yc⟩
  | _ => none

/-! ## CutHandler (`src/utils/cut.rs`)

`HashMap<String, EditableEguiPolygon>` is modelled as an association
list with unique keys; `insert` replaces the value of a present key and
otherwise adds an entry, `remove` deletes the entry of the key. -/

/-- The cut store. -/
def Cuts := List (String × EditableEguiPolygon)

instance : DecidableEq Cuts := by unfold Cuts; infer_instance

/-- Source: `HashMap::get`. -/
def cutsGet : Cuts → String → Option EditableEguiPolygon
  | [], _ => none
  | (k, v) :: rest, id => if k = id then some v else cutsGet rest id

/-- Source: `HashMap::insert`: replaces a present key's value, else new entry. -/
def cutsInsert : Cuts → String → EditableEguiPolygon → Cuts
  | [], id, v => [(id, v)]
  | (k, v') :: rest, id, v =>
    if k = id then (id, v) :: rest else (k, v') :: cutsInsert rest id v

/-- Source: `HashMap::remove`. -/
def cutsRemove : Cuts → String → Cuts
  | [], _ => []
  | (k, v) :: rest, id => if k = id then rest else (k, v) :: cutsRemove rest id

/-- Source: `HashMap::get_mut` followed by an in-place update. -/
def cutsModify : Cuts → String →
    (EditableEguiPolygon → EditableEguiPolygon) → Cuts
  | [], _, _ => []
  | (k, v) :: rest, id, f =>
    if k = id then (k, f v) :: rest else (k, v) :: cutsModify rest id f

/-- The live ids (hash-map key set) of a cut store. -/
def cutKeys : Cuts → List String := List.map Prod.fst

/-- The decimal rendering of a natural number, the model of
`format!("{}", n)`. -/
def natToStr (n : Nat) : String :=
  if n = 0 then "0"
  else ((Nat.digits 10 n).reverse.map Nat.digitChar).asString

/-- The cut id `format!("cut_{}", n)`. -/
def cutId (n : Nat) : String := "cut_" ++ natToStr n

/-- Source: `src/utils/cut.rs`: `pub struct CutHandler`. -/
structure CutHandler where
  cuts : Cuts
  active_cut_id : Option String
  draw_flag : Bool
  save_option : String
  save_seperate_suffix : String
deriving DecidableEq

namespace CutHandler

/-- Source: `CutHandler::new()`. -/
def new : CutHandler :=
  { cuts := []
    active_cut_id := none
    draw_flag := true
    save_option := "separate"
    save_seperate_suffix := "filtered" }

/-- Source: `CutHandler::add_new_cut()`: id `format!("cut_{}", cuts.len() + 1)`,
insert a fresh polygon under it and make it active. -/
def add_new_cut (h : CutHandler) : CutHandler :=
  let new_id := cutId (h.cuts.length + 1)
  { h with
    cuts := cutsInsert h.cuts new_id EditableEguiPolygon.new
    active_cut_id := some new_id }

/-- The "Remove Active Cut" button of `cut_handler_ui`:
`cuts.remove(active_id); active_cut_id = None` (no-op without an active
cut). -/
def removeActiveCut (h : CutHandler) : CutHandler :=
  match h.active_cut_id with
  | some id => { h with cuts := cutsRemove h.cuts id, active_cut_id := none }
  | none => h

/-- The "Active Cut" combo box of `cut_handler_ui`: select a cut (or
`None`). -/
def setActive (h : CutHandler) (id : Option String) : CutHandler :=
  { h with active_cut_id := id }

/-- A vertex edit on the active cut (`draw_active_cut` →
`EditableEguiPolygon::draw` → `add_new_vertex` through
`cuts.get_mut(active_id)`). -/
def addVertexToActive (h : CutHandler) (c : ℚ × ℚ) : CutHandler :=
  match h.active_cut_id with
  | some id =>
    { h with cuts := cutsModify h.cuts id (fun p => p.add_new_vertex c) }
  | none => h

end CutHandler

/-- The cut-management operations the UI can issue. -/
inductive CutOp where
  | add : CutOp
  | removeActive : CutOp
  | setActive (id : Option String) : CutOp
  | addVertex (c : ℚ × ℚ) : CutOp

/-- Apply one UI operation. -/
def CutOp.apply (h : CutHandler) : CutOp → CutHandler
  | CutOp.add => h.add_new_cut
  | CutOp.removeActive => h.removeActiveCut
  | CutOp.setActive id => h.setActive id
  | CutOp.addVertex c => h.addVertexToActive c

/-- Run a session of UI operations. -/
def CutHandler.runOps (h : CutHandler) (ops : List CutOp) : CutHandler :=
  ops.foldl CutOp.apply h

/-! ### `CutHandler::filter_lf_with_cuts` — combined mask

A dataframe restricted to the referenced columns is a mapping from
column name to a value sequence.  Note the source binds its sentinel
(`-1e6`) pre-filter to the unused variable `_filtered_lf`, so the mask
below is computed over the *unfiltered* rows, exactly as
`mask_creation_df` is. -/

/-- The columnar table handed to the mask computation. -/
def Table := List (String × List ℚ)

/-- Column extraction (`collect` of `select([col(x), col(y)])`; a missing
column is a `PolarsError`, hence `Option`). -/
def tableCol : Table → String → Option (List ℚ)
  | [], _ => none
  | (k, v) :: rest, name => if k = name then some v else tableCol rest name

/-- The per-cut mask of `filter_lf_with_cuts` (the inner `for i in
0..rows` loop): defined only for a cut with both columns bound, `none`
when a referenced column is missing. -/
def cutMask (tbl : Table) (cut : EditableEguiPolygon) :
    Option (List Bool) :=
  match cut.selected_x_column, cut.selected_y_column with
  | some xc, some yc => do
    let xs ← tableCol tbl xc
    let ys ← tableCol tbl yc
    pure ((xs.zip ys).map (fun p => cut.is_inside p.1 p.2))
  | _, _ => none

/-- Pointwise `combined_mask[i] = combined_mask[i] || mask[i]`. -/
def orMask (acc mask : List Bool) : List Bool :=
  (acc.zip mask).map (fun p => p.1 || p.2)

/-- The spec's `is_bound()`: both column names set — exactly the cuts the
`if let (Some(..), Some(..))` arms of `filter_lf_with_cuts` process. -/
def isBound (c : EditableEguiPolygon) : Bool :=
  c.selected_x_column.isSome && c.selected_y_column.isSome

/-- The `masks` vector of `filter_lf_with_cuts`: one mask per processed
cut, erroring (`?`) as soon as one cut's columns fail to resolve. -/
def cutMasks (tbl : Table) : List EditableEguiPolygon →
    Option (List (List Bool))
  | [] => some []
  | c :: rest => do
    let m ← cutMask tbl c
    let ms ← cutMasks tbl rest
    pure (m :: ms)

/-- The combined mask of `CutHandler::filter_lf_with_cuts`: one mask per
cut with both columns bound (cuts with an unbound column are skipped),
OR-folded into `vec![false; dataset_len]` where `dataset_len` is the
length of the *first* mask (`masks.first().map_or(0, |m| m.len())` —
zero when no cut is bound). -/
def combinedMask (cuts : List EditableEguiPolygon) (tbl : Table) :
    Option (List Bool) := do
  let masks ← cutMasks tbl (cuts.filter isBound)
  let dataset_len := (masks.head?.map List.length).getD 0
  pure (masks.foldl orMask (List.replicate dataset_len false))

/-! ## Histogrammer (`src/utils/histogrammer.rs`)

`Hist1D`/`Hist2D` wrap the external `ndhistogram` crate's
`VecHistogram` over `Uniform<f64>` axes with `f64` bin values: a
`Uniform::new(n, low, high)` axis has `n` visible bins plus an underflow
bin (index 0) and an overflow bin (index `n + 1`); `fill` adds `1.0` to
the addressed bin's value.  The dense bin vector is modelled as a
function from index pairs to values. -/

/-- Source: `ndhistogram` `Uniform::new(bins, low, high)` axis data. -/
structure UniformAxis where
  nbins : Nat
  low : ℚ
  high : ℚ
deriving DecidableEq

/-- The `ndhistogram` `Uniform` axis index map: 0 is the underflow bin,
`nbins + 1` the overflow bin, and an in-range coordinate lands in
`1 + floor((x - low) * nbins / (high - low))`. -/
def UniformAxis.index (ax : UniformAxis) (x : ℚ) : Nat :=
  if x < ax.low then 0
  else if ax.high ≤ x then ax.nbins + 1
  else (⌊(x - ax.low) * (ax.nbins : ℚ) / (ax.high - ax.low)⌋).toNat + 1

/-- Source: `src/utils/histogrammer.rs`: `pub struct Hist1D` (name, range, bin
width, and the wrapped one-axis `VecHistogram`). -/
structure Hist1D where
  name : String
  range : ℚ × ℚ
  bin_width : ℚ
  axis : UniformAxis
  values : Nat → ℚ

/-- Source: `Hist1D::new(name, bins, range)`. -/
def Hist1D.new (name : String) (bins : Nat) (range : ℚ × ℚ) : Hist1D :=
  { name := name
    range := range
    bin_width := (range.2 - range.1) / (bins : ℚ)
    axis := { nbins := bins, low := range.1, high := range.2 }
    values := fun _ => 0 }

/-- Source: `hist.fill(&value)` on the wrapped 1-axis `VecHistogram`. -/
def Hist1D.fill (h : Hist1D) (value : ℚ) : Hist1D :=
  { h with values := fun i =>
      if i = h.axis.index value then h.values i + 1 else h.values i }

/-- Source: `src/utils/histogrammer.rs`: `pub struct Hist2D`. -/
structure Hist2D where
  name : String
  x_range : ℚ × ℚ
  x_bin_width : ℚ
  y_range : ℚ × ℚ
  y_bin_width : ℚ
  x_axis : UniformAxis
  y_axis : UniformAxis
  values : Nat × Nat → ℚ

/-- Source: `Hist2D::new(name, x_bins, x_range, y_bins, y_range)`. -/
def Hist2D.new (name : String) (x_bins : Nat) (x_range : ℚ × ℚ)
    (y_bins : Nat) (y_range : ℚ × ℚ) : Hist2D :=
  { name := name
    x_range := x_range
    x_bin_width := (x_range.2 - x_range.1) / (x_bins : ℚ)
    y_range := y_range
    y_bin_width := (y_range.2 - y_range.1) / (y_bins : ℚ)
    x_axis := { nbins := x_bins, low := x_range.1, high := x_range.2 }
    y_axis := { nbins := y_bins, low := y_range.1, high := y_range.2 }
    values := fun _ => 0 }

/-- Source: `hist.fill(&(x, y))` on the wrapped 2-axis `VecHistogram`. -/
def Hist2D.fill (h : Hist2D) (x y : ℚ) : Hist2D :=
  { h with values := fun i =>
      if i = (h.x_axis.index x, h.y_axis.index y) then h.values i + 1
      else h.values i }

/-- Source: `enum HistogramTypes`. -/
inductive HistogramTypes where
  | hist1D (h : Hist1D) : HistogramTypes
  | hist2D (h : Hist2D) : HistogramTypes

/-- The `HashMap<String, HistogramTypes>` registry. -/
def HistList := List (String × HistogramTypes)

/-- Source: `HashMap::get` on the registry. -/
def histGet : HistList → String → Option HistogramTypes
  | [], _ => none
  | (k, v) :: rest, name => if k = name then some v else histGet rest name

/-- Source: `HashMap::insert` on the registry. -/
def histInsert : HistList → String → HistogramTypes → HistList
  | [], name, v => [(name, v)]
  | (k, v') :: rest, name, v =>
    if k = name then (name, v) :: rest else (k, v') :: histInsert rest name v

/-- Source: `src/utils/histogrammer.rs`: `pub struct Histogrammer`. -/
structure Histogrammer where
  histogram_list : HistList
  selected_histograms : List String

/-- Source: `Histogrammer::new()`. -/
def Histogrammer.new : Histogrammer :=
  { histogram_list := [], selected_histograms := [] }

/-- Source: `Histogrammer::add_hist2d(name, x_bins, x_range, y_bins, y_range)`. -/
def Histogrammer.add_hist2d (g : Histogrammer) (name : String)
    (x_bins : Nat) (x_range : ℚ × ℚ) (y_bins : Nat) (y_range : ℚ × ℚ) :
    Histogrammer :=
  { g with histogram_list := (histInsert g.histogram_list name
      (HistogramTypes.hist2D (Hist2D.new name x_bins x_range y_bins y_range))) }

/-- Source: `Histogrammer::fill_hist2d(name, x_data, y_data) -> bool`: `false`
when the name is not registered as a 2D histogram, `false` (before any
fill happens) when the two data sequences have different lengths,
otherwise fills every pair and returns `true`.  The returned
`Histogrammer` is the post-call state. -/
def Histogrammer.fill_hist2d (g : Histogrammer) (name : String)
    (x_data y_data : List ℚ) : Bool × Histogrammer :=
  match histGet g.histogram_list name with
  | some (HistogramTypes.hist2D h) =>
    if x_data.length ≠ y_data.length then (false, g)
    else
      (true,
       { g with histogram_list := (histInsert g.histogram_list name
           (HistogramTypes.hist2D
             ((x_data.zip y_data).foldl (fun acc p => acc.fill p.1 p.2) h))) })
  | _ => (false, g)

/-! ## Helper lemmas -/

theorem integralLoop_eq_sum_drop (bins : List Nat) :
    ∀ k s, bins.length ≤ s + k →
      Histogram.integralLoop bins s k = (bins.drop s).sum := by
  intro k
  induction k with
  | zero =>
    intro s hs
    simp only [Histogram.integralLoop]
    rw [List.drop_eq_nil_of_le (by omega)]
    rfl
  | succ k ih =>
    intro s hs
    by_cases hlt : s < bins.length
    · simp only [Histogram.integralLoop, if_pos hlt]
      rw [ih (s + 1) (by omega), List.drop_eq_getElem_cons hlt, List.sum_cons,
        List.getD_eq_getElem bins 0 hlt]
    · simp only [Histogram.integralLoop, if_neg hlt]
      rw [List.drop_eq_nil_of_le (by omega)]
      rfl

theorem add_range (h : Histogram) (v : ℚ) : (h.add v).range = h.range := by
  simp only [Histogram.add]
  split
  · split <;> rfl
  · rfl

theorem add_bin_width (h : Histogram) (v : ℚ) :
    (h.add v).bin_width = h.bin_width := by
  simp only [Histogram.add]
  split
  · split <;> rfl
  · rfl

theorem add_bins_length (h : Histogram) (v : ℚ) :
    (h.add v).bins.length = h.bins.length := by
  simp only [Histogram.add]
  split
  · split
    · simp
    · rfl
  · rfl

theorem addList_range (h : Histogram) (vs : List ℚ) :
    (h.addList vs).range = h.range := by
  induction vs generalizing h with
  | nil => rfl
  | cons v vs ih => rw [Histogram.addList, List.foldl_cons, ← Histogram.addList,
      ih, add_range]

theorem addList_bin_width (h : Histogram) (vs : List ℚ) :
    (h.addList vs).bin_width = h.bin_width := by
  induction vs generalizing h with
  | nil => rfl
  | cons v vs ih => rw [Histogram.addList, List.foldl_cons, ← Histogram.addList,
      ih, add_bin_width]

theorem addList_bins_length (h : Histogram) (vs : List ℚ) :
    (h.addList vs).bins.length = h.bins.length := by
  induction vs generalizing h with
  | nil => rfl
  | cons v vs ih => rw [Histogram.addList, List.foldl_cons, ← Histogram.addList,
      ih, add_bins_length]

/-! ## Claim theorems -/

/-- C1: for a `Histogram` with range `(a, b)`, `n` bins and the
constructor's bin width, `add` counts a value `v` in exactly one bin —
index `⌊(v - a) / bin_width⌋`, which never reaches past `n - 1` — iff
`a ≤ v < b`; any other value (the sentinel included) leaves every bin
unchanged; and filling `[0.5, 9.9, 10.0, -1e6, 5.0]` into a
`bins = 10, range = (0, 10)` histogram yields bin0 = bin5 = bin9 = 1 and
all other bins 0. -/
theorem C1_add_bin_semantics (h : Histogram) (n : Nat) (a b v : ℚ)
    (hn : 0 < n) (hab : a < b) (hr : h.range = (a, b))
    (hw : h.bin_width = (b - a) / (n : ℚ)) (hlen : h.bins.length = n) :
    ((a ≤ v ∧ v < b) →
      (⌊(v - a) / ((b - a) / (n : ℚ))⌋).toNat < n ∧
      (h.add v).bins
        = h.bins.set (⌊(v - a) / ((b - a) / (n : ℚ))⌋).toNat
            (h.bins.getD (⌊(v - a) / ((b - a) / (n : ℚ))⌋).toNat 0 + 1)) ∧
    (¬ (a ≤ v ∧ v < b) → (h.add v).bins = h.bins) ∧
    ((Histogram.new 10 ((0 : ℚ), 10)).addList
        [1/2, 99/10, 10, -1000000, 5]).bins
      = [1, 0, 0, 0, 0, 1, 0, 0, 0, 1] := by
  have hnq : (0 : ℚ) < (n : ℚ) := by exact_mod_cast hn
  have hw0 : (0 : ℚ) < (b - a) / (n : ℚ) := div_pos (by linarith) hnq
  refine ⟨?_, ?_, ?_⟩
  · rintro ⟨h1, h2⟩
    have hq0 : (0 : ℚ) ≤ (v - a) / ((b - a) / (n : ℚ)) :=
      div_nonneg (by linarith) hw0.le
    have hqn : (v - a) / ((b - a) / (n : ℚ)) < (n : ℚ) := by
      rw [div_lt_iff₀ hw0]
      have hcan : (n : ℚ) * ((b - a) / (n : ℚ)) = b - a := by
        field_simp
      rw [hcan]
      linarith
    have hfl : ⌊(v - a) / ((b - a) / (n : ℚ))⌋ < (n : ℤ) := by
      rw [Int.floor_lt]
      exact_mod_cast hqn
    have hfl0 : 0 ≤ ⌊(v - a) / ((b - a) / (n : ℚ))⌋ := Int.floor_nonneg.mpr hq0
    have hidx : (⌊(v - a) / ((b - a) / (n : ℚ))⌋).toNat < n := by omega
    refine ⟨hidx, ?_⟩
    simp only [Histogram.add, hr, hw, hlen]
    rw [if_pos ⟨h1, h2⟩, if_pos hidx]
  · intro hnv
    simp only [Histogram.add, hr]
    rw [if_neg hnv]
  · norm_num [Histogram.addList, Histogram.add, Histogram.new, List.foldl,
      List.replicate]
    decide

/-- Witness for C1 at `n = 10`, `range = (0, 10)`, `v = 1/2`. -/
theorem C1_add_bin_semantics_witness :
    ((Histogram.new 10 ((0 : ℚ), 10)).add (1/2)).bins
      = (List.replicate 10 0).set 0 ((List.replicate 10 0).getD 0 0 + 1) := by
  have h := (C1_add_bin_semantics (Histogram.new 10 ((0 : ℚ), 10)) 10 0 10 (1/2)
    (by norm_num) (by norm_num) rfl (by norm_num [Histogram.new]) (by
      simp [Histogram.new])).1 (by norm_num)
  have hidx : (⌊((1/2 : ℚ) - 0) / ((10 - 0) / ((10 : Nat) : ℚ))⌋).toNat = 0 := by
    norm_num
  rw [hidx] at h
  exact h.2

/-- C3 counterexample: neither constructor rejects anything.  With
`bin_count = 0` the 1D constructor returns a histogram with an empty bin
vector; with the inverted range `(10, 0)` it returns one with ten zeroed
bins and bin width `-1`; the 2D constructor likewise returns a value
(seeded extrema, empty sparse map) for zero bins and an inverted axis.
No `InvalidConfiguration` error exists anywhere in these code paths. -/
theorem C3_no_validation_counterexample :
    (Histogram.new 0 ((0 : ℚ), 10)).bins = [] ∧
    (Histogram.new 10 ((10 : ℚ), 0)).bins = List.replicate 10 0 ∧
    (Histogram.new 10 ((10 : ℚ), 0)).bin_width = -1 ∧
    (Histogram2D.new 0 ((0 : ℚ), 10) 10 ((10 : ℚ), 0)).bins = [] ∧
    (Histogram2D.new 0 ((0 : ℚ), 10) 10 ((10 : ℚ), 0)).min_count
      = 4294967295 ∧
    (Histogram2D.new 0 ((0 : ℚ), 10) 10 ((10 : ℚ), 0)).max_count = 0 := by
  refine ⟨rfl, rfl, ?_, rfl, rfl, rfl⟩
  norm_num [Histogram.new]

/-- C3 (amended): construction never fails — `Histogram::new` and
`Histogram2D::new` perform no validation and return the plain record for
every argument (zero bins and inverted ranges included); on an
inverted-range histogram the half-open range test of `add` is
unsatisfiable, so every subsequent fill is silently dropped. -/
theorem C3_construction_total (n : Nat) (r : ℚ × ℚ) (xb : Nat)
    (xr : ℚ × ℚ) (yb : Nat) (yr : ℚ × ℚ) :
    Histogram.new n r
      = ⟨List.replicate n 0, r, (r.2 - r.1) / (n : ℚ)⟩ ∧
    Histogram2D.new xb xr yb yr
      = ⟨[], xr, yr, (xr.2 - xr.1) / (xb : ℚ), (yr.2 - yr.1) / (yb : ℚ),
          4294967295, 0⟩ ∧
    (∀ (a b v : ℚ) (m : Nat), b ≤ a →
      ((Histogram.new m (a, b)).add v).bins = (Histogram.new m (a, b)).bins) := by
  refine ⟨rfl, rfl, fun a b v m hba => ?_⟩
  simp only [Histogram.add, Histogram.new]
  rw [if_neg]
  rintro ⟨h1, h2⟩
  exact absurd (lt_of_le_of_lt h1 h2) (not_lt.mpr hba)

/-- Witness for C3 (amended) at the inverted range `(10, 0)`, `v = 5`. -/
theorem C3_construction_total_witness :
    ((Histogram.new 3 ((10 : ℚ), 0)).add 5).bins
      = (Histogram.new 3 ((10 : ℚ), 0)).bins :=
  (C3_construction_total 3 ((10 : ℚ), 0) 0 ((0 : ℚ), 0) 0 ((0 : ℚ), 0)).2.2
    10 0 5 3 (by norm_num)

/-- C9: `stats(range.0, range.1)` has first (count) component equal to
the sum of all bin counts — the full-range window integral equals the
total number of accepted fills. -/
theorem C9_full_range_integral (h : Histogram) (n : Nat) (a b : ℚ)
    (hn : 0 < n) (hab : a < b) (hr : h.range = (a, b))
    (hw : h.bin_width = (b - a) / (n : ℚ)) (hlen : h.bins.length = n) :
    (h.stats a b).1 = h.bins.sum := by
  have hnq : (0 : ℚ) < (n : ℚ) := by exact_mod_cast hn
  have hget_a : h.get_bin a = some 0 := by
    simp only [Histogram.get_bin, hr, hw]
    rw [if_neg (by push_neg; constructor <;> linarith)]
    norm_num
  have hqb : (b - a) / ((b - a) / (n : ℚ)) = (n : ℚ) := by
    have hba : b - a ≠ 0 := sub_ne_zero.mpr (ne_of_gt hab)
    have hn0 : (n : ℚ) ≠ 0 := ne_of_gt hnq
    field_simp
  have hget_b : h.get_bin b = some n := by
    simp only [Histogram.get_bin, hr, hw]
    rw [if_neg (by push_neg; constructor <;> linarith), hqb]
    simp
  simp only [Histogram.stats, Histogram.integral_in_range_x, hget_a, hget_b,
    Option.getD_some, Histogram.integral_in_range_bin]
  rw [integralLoop_eq_sum_drop h.bins (n + 1 - 0) 0 (by omega), List.drop_zero]

/-- Witness for C9: a `bins = 4, range = (0, 2)` histogram filled with
three in-range values and one out-of-range value. -/
theorem C9_full_range_integral_witness :
    (((Histogram.new 4 ((0 : ℚ), 2)).addList [1/4, 3/2, 1/4, 7]).stats 0 2).1
      = ((Histogram.new 4 ((0 : ℚ), 2)).addList [1/4, 3/2, 1/4, 7]).bins.sum := by
  exact C9_full_range_integral
    ((Histogram.new 4 ((0 : ℚ), 2)).addList [1/4, 3/2, 1/4, 7]) 4 0 2
    (by norm_num) (by norm_num)
    ((addList_range _ _).trans rfl)
    ((addList_bin_width _ _).trans (by norm_num [Histogram.new]))
    ((addList_bins_length _ _).trans (by simp [Histogram.new]))

/-- C10: `get_bin` is defined on the *closed* range `[range.0, range.1]`
(returning the floor-computed index) and `None` outside it; at the upper
edge it returns `Some n` — one past the last valid bin index of the
`n`-bin vector, although `add` drops that same value — and the
bin-summing loop tolerates the out-of-range index: summing bins `0..=n`
equals summing `0..=n-1`, both giving the total. -/
theorem C10_get_bin_edges (h : Histogram) (n : Nat) (a b : ℚ)
    (hn : 0 < n) (hab : a < b) (hr : h.range = (a, b))
    (hw : h.bin_width = (b - a) / (n : ℚ)) (hlen : h.bins.length = n) :
    (∀ x : ℚ, a ≤ x → x ≤ b →
      h.get_bin x = some (⌊(x - a) / ((b - a) / (n : ℚ))⌋).toNat) ∧
    (∀ x : ℚ, x < a ∨ x > b → h.get_bin x = none) ∧
    h.get_bin b = some n ∧
    h.bins.length = n ∧
    h.integral_in_range_bin 0 n = h.bins.sum ∧
    h.integral_in_range_bin 0 (n - 1) = h.bins.sum := by
  have hnq : (0 : ℚ) < (n : ℚ) := by exact_mod_cast hn
  have hqb : (b - a) / ((b - a) / (n : ℚ)) = (n : ℚ) := by
    have hba : b - a ≠ 0 := sub_ne_zero.mpr (ne_of_gt hab)
    have hn0 : (n : ℚ) ≠ 0 := ne_of_gt hnq
    field_simp
  refine ⟨?_, ?_, ?_, hlen, ?_, ?_⟩
  · intro x hax hxb
    simp only [Histogram.get_bin, hr, hw]
    rw [if_neg (by push_neg; constructor <;> linarith)]
  · intro x hout
    simp only [Histogram.get_bin, hr]
    rw [if_pos hout]
  · simp only [Histogram.get_bin, hr, hw]
    rw [if_neg (by push_neg; constructor <;> linarith), hqb]
    simp
  · rw [Histogram.integral_in_range_bin,
      integralLoop_eq_sum_drop h.bins (n + 1 - 0) 0 (by omega), List.drop_zero]
  · rw [Histogram.integral_in_range_bin,
      integralLoop_eq_sum_drop h.bins (n - 1 + 1 - 0) 0 (by omega),
      List.drop_zero]

/-- C4 helper: one `setBinCount` step is non-destructive of presence. -/
theorem setBinCount_ne_nil (l : Bins2D) (k : Nat × Nat) (v : Nat) :
    setBinCount l k v ≠ [] := by
  cases l with
  | nil => simp [setBinCount]
  | cons hd tl =>
    obtain ⟨k', v'⟩ := hd
    simp only [setBinCount]
    split <;> simp

/-- C4 helper: incrementing the stored count of a key pushes the maximum
stored count to `max old (new value)`. -/
theorem maxBinCount_setBin_succ (l : Bins2D) (k : Nat × Nat) :
    maxBinCount (setBinCount l k (getBinCount l k + 1))
      = max (maxBinCount l) (getBinCount l k + 1) := by
  induction l with
  | nil => simp [setBinCount, getBinCount, maxBinCount]
  | cons hd tl ih =>
    obtain ⟨k', v'⟩ := hd
    by_cases hk : k' = k
    · subst hk
      simp only [getBinCount, setBinCount, eq_self_iff_true, if_true,
        maxBinCount, List.foldr_cons]
      omega
    · simp only [getBinCount, setBinCount, if_neg hk, maxBinCount,
        List.foldr_cons]
      have hrec := ih
      simp only [maxBinCount] at hrec
      rw [hrec]
      omega

/-- C4 helper: `Histogram2D::fill` preserves the actual extrema
relationship. -/
theorem fill_extremaInv (h : Histogram2D) (x y : ℚ) :
    extremaInv h → extremaInv (h.fill x y) := by
  intro hinv
  unfold Histogram2D.fill extremaInv
  split
  case isFalse => exact hinv
  case isTrue hcond =>
    dsimp only
    rcases hinv with ⟨hbins, hmin, hmax⟩ | ⟨hbins, hmin, hmax⟩
    · refine Or.inr ⟨setBinCount_ne_nil _ _ _, ?_, ?_⟩
      · rw [hbins, hmin]
        simp only [getBinCount]
        norm_num
      · rw [hbins, hmax]
        simp only [getBinCount, setBinCount, maxBinCount, List.foldr_cons,
          List.foldr_nil]
        decide
    · refine Or.inr ⟨setBinCount_ne_nil _ _ _, ?_, ?_⟩
      · rw [hmin, if_neg (by omega)]
      · rw [hmax, maxBinCount_setBin_succ]
        split <;> omega

/-- C4 helper: the invariant holds after any fill sequence. -/
theorem fillList_extremaInv (h : Histogram2D) (ps : List (ℚ × ℚ)) :
    extremaInv h → extremaInv (h.fillList ps) := by
  induction ps generalizing h with
  | nil => exact fun hi => hi
  | cons p ps ih =>
    intro hi
    rw [Histogram2D.fillList, List.foldl_cons, ← Histogram2D.fillList]
    exact ih _ (fill_extremaInv _ _ _ hi)

/-- C4 counterexample: fill the same in-range point twice into a fresh
`10×10` histogram over `(0,10)×(0,10)`.  The only populated bin holds
count 2, so the minimum count over populated bins is 2, but `min_count`
is 1: the field is not the running minimum over populated bins. -/
theorem C4_min_count_counterexample :
    ((Histogram2D.new 10 ((0 : ℚ), 10) 10 ((0 : ℚ), 10)).fillList
        [(1/2, 1/2), (1/2, 1/2)]).bins = [((0, 0), 2)] ∧
    specMinCount ((Histogram2D.new 10 ((0 : ℚ), 10) 10 ((0 : ℚ), 10)).fillList
        [(1/2, 1/2), (1/2, 1/2)]).bins = 2 ∧
    ((Histogram2D.new 10 ((0 : ℚ), 10) 10 ((0 : ℚ), 10)).fillList
        [(1/2, 1/2), (1/2, 1/2)]).min_count = 1 := by
  have hfill : ((Histogram2D.new 10 ((0 : ℚ), 10) 10 ((0 : ℚ), 10)).fillList
      [(1/2, 1/2), (1/2, 1/2)]).bins = [((0, 0), 2)] ∧
      ((Histogram2D.new 10 ((0 : ℚ), 10) 10 ((0 : ℚ), 10)).fillList
      [(1/2, 1/2), (1/2, 1/2)]).min_count = 1 := by
    norm_num [Histogram2D.fillList, Histogram2D.fill, Histogram2D.new,
      List.foldl, getBinCount, setBinCount]
  refine ⟨hfill.1, ?_, hfill.2⟩
  rw [hfill.1]
  rfl

/-- C4 (amended): after any fill sequence on a freshly constructed
`Histogram2D`, `max_count` equals the maximum count over populated bins
once any bin is populated (`u32::MIN = 0` before), whereas `min_count`
is `1` once any bin is populated (`u32::MAX` before): it is the minimum
*post-increment count ever observed*, not the current minimum over
populated bins. -/
theorem C4_extrema_amended (xb : Nat) (xr : ℚ × ℚ) (yb : Nat)
    (yr : ℚ × ℚ) (ps : List (ℚ × ℚ)) :
    extremaInv ((Histogram2D.new xb xr yb yr).fillList ps) :=
  fillList_extremaInv _ ps (Or.inl ⟨rfl, rfl, rfl⟩)

/-- C7 helper: the ray-crossing test does not depend on the orientation
of the edge (both orientations describe the same supporting line). -/
theorem crossesEdge_swap (q a b : ℚ × ℚ) :
    crossesEdge q (a, b) = crossesEdge q (b, a) := by
  have hcomm : ∀ x y : Bool, (x != y) = (y != x) := by decide
  unfold crossesEdge
  by_cases hy : a.2 = b.2
  · simp [hy]
  · have hd : b.2 - a.2 ≠ 0 := sub_ne_zero.mpr (Ne.symm hy)
    have hd' : a.2 - b.2 ≠ 0 := sub_ne_zero.mpr hy
    have hx : (b.1 - a.1) * (q.2 - a.2) / (b.2 - a.2) + a.1
        = (a.1 - b.1) * (q.2 - b.2) / (a.2 - b.2) + b.1 := by
      field_simp
      ring
    dsimp only
    rw [hx, hcomm]

/-- C6: `Histogrammer::fill_hist2d` on a registered 2D histogram with
mismatched-length x/y sequences reports the failure (returns `false`,
printing the length-mismatch error) before any fill: the whole registry,
hence the target histogram's bin contents, is exactly the state before
the call. -/
theorem C6_fill_hist2d_mismatch (g : Histogrammer) (name : String)
    (hd : Hist2D) (xs ys : List ℚ)
    (hreg : histGet g.histogram_list name = some (HistogramTypes.hist2D hd))
    (hlen : xs.length ≠ ys.length) :
    g.fill_hist2d name xs ys = (false, g) := by
  unfold Histogrammer.fill_hist2d
  rw [hreg]
  simp [hlen]

/-- Witness for C6: a freshly added 2×2 histogram, `xs = [1]`, `ys = []`. -/
theorem C6_fill_hist2d_mismatch_witness :
    (Histogrammer.new.add_hist2d "pid" 2 ((0 : ℚ), 1) 2
        ((0 : ℚ), 1)).fill_hist2d "pid" [1] []
      = (false,
         Histogrammer.new.add_hist2d "pid" 2 ((0 : ℚ), 1) 2 ((0 : ℚ), 1)) :=
  C6_fill_hist2d_mismatch _ "pid"
    (Hist2D.new "pid" 2 ((0 : ℚ), 1) 2 ((0 : ℚ), 1)) [1] [] rfl (by decide)

/-- C7: the point-containment test of a polygon with fewer than 3
vertices returns `false` for every query point — the closed exterior
ring of such a polygon has no edge (0 or 1 vertices) or a pair of
mutually cancelling edges (2 vertices), so the even-odd crossing count
is always even; the test is a total function, so it never errors. -/
theorem C7_degenerate_contains_nothing (vs : List (ℚ × ℚ)) (q : ℚ × ℚ)
    (hdeg : vs.length < 3) : raycastContains vs q = false := by
  cases vs with
  | nil => rfl
  | cons a tl =>
    cases tl with
    | nil => simp [raycastContains, closeRing, ringEdges]
    | cons b tl2 =>
      cases tl2 with
      | nil =>
        by_cases hba : b = a
        · simp [raycastContains, closeRing, ringEdges, hba, crossesEdge]
        · have hlast : [a, b].getLast? = some b := rfl
          simp only [raycastContains, closeRing, hlast, Option.some.injEq,
            if_neg hba, ringEdges]
          simp only [List.cons_append, List.nil_append, List.tail_cons,
            List.zip_cons_cons, List.zip_nil_right, List.countP_cons,
            List.countP_nil]
          rw [crossesEdge_swap q a b]
          cases hc : crossesEdge q (b, a) <;> simp [hc]
      | cons c tl3 =>
        exfalso
        simp only [List.length_cons] at hdeg
        omega

/-- Witness for C7: a 2-vertex polygon contains nothing, e.g. not the
midpoint of its segment. -/
theorem C7_degenerate_contains_nothing_witness :
    raycastContains [((0 : ℚ), 0), ((2 : ℚ), 2)] (1, 1) = false :=
  C7_degenerate_contains_nothing [((0 : ℚ), 0), ((2 : ℚ), 2)] (1, 1)
    (by decide)

/-- C8 helper: a vertex decodes back to itself. -/
theorem decVertex_encVertex (v : ℚ × ℚ) : decVertex (encVertex v) = some v := by
  simp [decVertex, encVertex, decNum]

/-- C8 helper: the vertex array decodes back to itself. -/
theorem decVertices_enc (vs : List (ℚ × ℚ)) :
    decVertices (Json.arr (vs.map encVertex)) = some vs := by
  simp only [decVertices]
  induction vs with
  | nil => rfl
  | cons v vs ih => simp [decVertexList, decVertex_encVertex, ih]

/-- C8 helper: an optional index decodes back to itself. -/
theorem decOptNat_enc (i : Option Nat) : decOptNat (encOptNat i) = some i := by
  cases i with
  | none => rfl
  | some n =>
    simp [encOptNat, decOptNat, Rat.num_natCast, Rat.den_natCast,
      Int.toNat_natCast]

/-- C8 helper: an optional column name decodes back to itself. -/
theorem decOptStr_enc (s : Option String) :
    decOptStr (encOptStr s) = some s := by
  cases s <;> rfl

/-- C8: serializing an `EditableEguiPolygon` to the persisted JSON format
and deserializing the result reproduces the polygon exactly — the vertex
sequence (order and values) and the two optional column-name strings (and
the serialized selection index) are identical to the original. -/
theorem C8_json_round_trip (p : EditableEguiPolygon) :
    EditableEguiPolygon.fromJson p.toJson = some p := by
  obtain ⟨vs, idx, xc, yc⟩ := p
  simp [EditableEguiPolygon.toJson, EditableEguiPolygon.fromJson, jsonField,
    decVertices_enc, decOptNat_enc, decOptStr_enc]

/-- Witness for C10 on a concrete `bins = 10, range = (0, 10)`
histogram: the upper edge maps to bin 10, one past bin 9. -/
theorem C10_get_bin_edges_witness :
    (Histogram.new 10 ((0 : ℚ), 10)).get_bin 10 = some 10 :=
  (C10_get_bin_edges (Histogram.new 10 ((0 : ℚ), 10)) 10 0 10
    (by norm_num) (by norm_num) rfl (by norm_num [Histogram.new])
    (by simp [Histogram.new])).2.2.1

/-- C2 helper: pointwise reading of `orMask`. -/
theorem orMask_getD (acc : List Bool) :
    ∀ (mask : List Bool) (i : Nat), acc.length = mask.length →
      (orMask acc mask).getD i false
        = (acc.getD i false || mask.getD i false) := by
  induction acc with
  | nil =>
    intro mask i h
    cases mask with
    | nil => simp [orMask]
    | cons m mask => simp at h
  | cons a acc ih =>
    intro mask i h
    cases mask with
    | nil => simp at h
    | cons m mask =>
      cases i with
      | zero => simp [orMask]
      | succ i =>
        have hrec := ih mask i (by simpa using h)
        simpa [orMask] using hrec

/-- C2 helper: `orMask` truncates to the shorter operand. -/
theorem orMask_length (acc mask : List Bool) :
    (orMask acc mask).length = min acc.length mask.length := by
  simp [orMask]

/-- C2 helper: the OR-fold of equal-length masks reads as a disjunction
over the masks. -/
theorem foldl_orMask (n : Nat) :
    ∀ (masks : List (List Bool)), (∀ mk ∈ masks, mk.length = n) →
      ∀ acc : List Bool, acc.length = n →
        (masks.foldl orMask acc).length = n ∧
        ∀ i : Nat, (masks.foldl orMask acc).getD i false
          = (acc.getD i false || masks.any (fun mk => mk.getD i false)) := by
  intro masks
  induction masks with
  | nil =>
    intro _ acc hacc
    exact ⟨hacc, fun i => by simp⟩
  | cons mk masks ih =>
    intro hall acc hacc
    have hmk : mk.length = n := hall mk (List.mem_cons_self _ _)
    have hlen : (orMask acc mk).length = n := by
      rw [orMask_length, hacc, hmk, min_self]
    obtain ⟨hl, hg⟩ :=
      ih (fun m hm => hall m (List.mem_cons_of_mem _ hm)) (orMask acc mk) hlen
    refine ⟨by simpa using hl, fun i => ?_⟩
    rw [List.foldl_cons, hg i, orMask_getD acc mk i (by rw [hacc, hmk])]
    simp [Bool.or_assoc]

/-- C2 helper: `cutMasks` on cuts whose masks are given pointwise. -/
theorem cutMasks_map (tbl : Table) (f : EditableEguiPolygon → List Bool) :
    ∀ l : List EditableEguiPolygon, (∀ c ∈ l, cutMask tbl c = some (f c)) →
      cutMasks tbl l = some (l.map f) := by
  intro l
  induction l with
  | nil => intro _; rfl
  | cons c l ih =>
    intro h
    have hc := h c (List.mem_cons_self _ _)
    have hl := ih (fun d hd => h d (List.mem_cons_of_mem _ hd))
    simp [cutMasks, hc, hl]

/-- C2 helper: the mask a bound cut with resolvable columns produces. -/
theorem cutMask_bound (tbl : Table) (c : EditableEguiPolygon)
    (xc yc : String) (xs ys : List ℚ)
    (hxc : c.selected_x_column = some xc)
    (hyc : c.selected_y_column = some yc)
    (hxs : tableCol tbl xc = some xs) (hys : tableCol tbl yc = some ys) :
    cutMask tbl c
      = some ((xs.zip ys).map (fun p => c.is_inside p.1 p.2)) := by
  unfold cutMask
  rw [hxc, hyc]
  simp [hxs, hys]

/-- C2 helper: reading an encoded row of a zipped-and-mapped mask. -/
theorem zip_map_getD (xs ys : List ℚ) (g : ℚ × ℚ → Bool) (i : Nat)
    (hx : i < xs.length) (hy : i < ys.length) :
    ((xs.zip ys).map g).getD i false = g (xs.getD i 0, ys.getD i 0) := by
  have hz : i < (xs.zip ys).length := by
    rw [List.length_zip]
    omega
  have hm : i < ((xs.zip ys).map g).length := by
    rw [List.length_map]
    exact hz
  rw [List.getD_eq_getElem _ _ hm, List.getElem_map, List.getElem_zip,
    List.getD_eq_getElem _ _ hx, List.getD_eq_getElem _ _ hy]

/-- C2 helper: reading any position of an all-`false` mask gives
`false`. -/
theorem getD_replicate_false (n : Nat) :
    ∀ i : Nat, (List.replicate n false).getD i false = false := by
  induction n with
  | zero => intro i; rfl
  | succ n ih =>
    intro i
    cases i with
    | zero => rfl
    | succ i => exact ih i

/-- C2 helper: `any` over a mapped list reads pointwise. -/
theorem any_map_pointwise {α β : Type} (l : List α) (f : α → β)
    (p : β → Bool) : (l.map f).any p = l.any (fun a => p (f a)) := by
  induction l with
  | nil => rfl
  | cons a l ih => simp [List.any_cons, ih]

/-- C2 helper: `List.any` only depends on the predicate's values on the
list's members. -/
theorem any_congr_mem {α : Type} (l : List α) (p q : α → Bool)
    (h : ∀ a ∈ l, p a = q a) : l.any p = l.any q := by
  induction l with
  | nil => rfl
  | cons a l ih =>
    simp only [List.any_cons, h a (List.mem_cons_self _ _),
      ih (fun b hb => h b (List.mem_cons_of_mem _ hb))]

/-- C2 counterexample: a single bound cut whose polygon is the square
`(-2e6,-2e6)..(0,0)` and a one-row table whose x and y values are both
the sentinel `-1e6`.  `(x[0], y[0])` lies inside the polygon, so the
code's combined mask is `[true]` — the claimed sentinel exclusion does
not happen (the source's sentinel pre-filter is bound to the unused
`_filtered_lf` and dropped). -/
theorem C2_sentinel_not_excluded_counterexample :
    combinedMask
      [⟨[(-2000000, -2000000), (1, -2000000), (1, 2), (-2000000, 2)],
        none, some "x", some "y"⟩]
      [("x", [(-1000000 : ℚ)]), ("y", [(-1000000 : ℚ)])]
      = some [true] := by
  have hin : raycastContains
      [((-2000000 : ℚ), (-2000000 : ℚ)), (1, -2000000), (1, 2), (-2000000, 2)]
      (-1000000, -1000000) = true := by
    norm_num [raycastContains, closeRing, ringEdges, crossesEdge,
      List.countP_cons]
  norm_num [combinedMask, cutMasks, cutMask, isBound, tableCol,
    EditableEguiPolygon.is_inside, List.filter, orMask, hin]

/-- C2 (amended): for a table on which every bound cut's two columns
resolve to length-`n` sequences, the combined mask is the logical OR
over the bound cuts (cuts with an unbound column contribute nothing) of
"this cut's polygon contains `(x[i], y[i])`" — with no sentinel
exclusion, since the sentinel pre-filter is discarded; when at least one
cut is bound the mask has length `n`, but with zero bound cuts it is the
*empty* mask (length 0, not `n`), which still selects nothing. -/
theorem C2_combined_mask_amended (cuts : List EditableEguiPolygon)
    (tbl : Table) (n : Nat)
    (hcols : ∀ c ∈ cuts, ∀ xc yc : String, c.selected_x_column = some xc →
      c.selected_y_column = some yc →
      (∃ xs, tableCol tbl xc = some xs ∧ xs.length = n) ∧
      (∃ ys, tableCol tbl yc = some ys ∧ ys.length = n)) :
    ∃ m, combinedMask cuts tbl = some m ∧
      (cuts.filter isBound = [] → m = []) ∧
      (cuts.filter isBound ≠ [] →
        m.length = n ∧
        ∀ i : Nat, i < n →
          m.getD i false
            = (cuts.filter isBound).any (fun c =>
                c.is_inside
                  (((tableCol tbl (c.selected_x_column.getD "")).getD
                      []).getD i 0)
                  (((tableCol tbl (c.selected_y_column.getD "")).getD
                      []).getD i 0))) := by
  classical
  set f : EditableEguiPolygon → List Bool := fun c =>
    ((((tableCol tbl (c.selected_x_column.getD "")).getD []).zip
        ((tableCol tbl (c.selected_y_column.getD "")).getD [])).map
      (fun p => c.is_inside p.1 p.2)) with hf
  have hbound : ∀ c ∈ cuts.filter isBound,
      cutMask tbl c = some (f c) ∧ (f c).length = n ∧
      ((tableCol tbl (c.selected_x_column.getD "")).getD []).length = n ∧
      ((tableCol tbl (c.selected_y_column.getD "")).getD []).length = n := by
    intro c hc
    rw [List.mem_filter] at hc
    obtain ⟨hmem, hbnd⟩ := hc
    unfold isBound at hbnd
    rw [Bool.and_eq_true, Option.isSome_iff_exists,
      Option.isSome_iff_exists] at hbnd
    obtain ⟨⟨xc, hxc⟩, ⟨yc, hyc⟩⟩ := hbnd
    obtain ⟨⟨xs, hxs, hxl⟩, ⟨ys, hys, hyl⟩⟩ := hcols c hmem xc yc hxc hyc
    have hgx : (tableCol tbl (c.selected_x_column.getD "")).getD [] = xs := by
      rw [hxc, Option.getD_some, hxs, Option.getD_some]
    have hgy : (tableCol tbl (c.selected_y_column.getD "")).getD [] = ys := by
      rw [hyc, Option.getD_some, hys, Option.getD_some]
    refine ⟨?_, ?_, by rw [hgx, hxl], by rw [hgy, hyl]⟩
    · rw [cutMask_bound tbl c xc yc xs ys hxc hyc hxs hys, hf]
      simp only [hgx, hgy]
    · rw [hf]
      simp only [hgx, hgy, List.length_map, List.length_zip, hxl, hyl,
        min_self]
  have hmasks : cutMasks tbl (cuts.filter isBound)
      = some ((cuts.filter isBound).map f) :=
    cutMasks_map tbl f _ (fun c hc => (hbound c hc).1)
  cases hemp : cuts.filter isBound with
  | nil =>
    refine ⟨[], ?_, fun _ => rfl, fun hne => absurd rfl hne⟩
    rw [hemp] at hmasks
    simp [combinedMask, hemp, hmasks, cutMasks, orMask]
  | cons c0 rest =>
    have hlens : ∀ mk ∈ (cuts.filter isBound).map f, mk.length = n := by
      intro mk hmk
      rw [List.mem_map] at hmk
      obtain ⟨c, hc, hceq⟩ := hmk
      rw [← hceq]
      exact (hbound c hc).2.1
    have hc0 : c0 ∈ cuts.filter isBound := by
      rw [hemp]
      exact List.mem_cons_self _ _
    have hhead : ((((cuts.filter isBound).map f).head?.map
        List.length).getD 0) = n := by
      rw [hemp]
      simp only [List.map_cons, List.head?_cons, Option.map_some,
        Option.getD_some]
      exact (hbound c0 hc0).2.1
    obtain ⟨hml, hmg⟩ := foldl_orMask n ((cuts.filter isBound).map f) hlens
      (List.replicate n false) (by simp)
    refine ⟨((cuts.filter isBound).map f).foldl orMask
      (List.replicate n false), ?_, ?_, ?_⟩
    · simp only [combinedMask, hmasks, Option.bind_eq_bind, Option.some_bind,
        hhead]
      rfl
    · intro habs
      exact absurd habs (List.cons_ne_nil c0 rest)
    · intro _
      refine ⟨hml, fun i hi => ?_⟩
      rw [hmg i, getD_replicate_false n i, Bool.false_or, ← hemp,
        any_map_pointwise]
      apply any_congr_mem
      intro c hc
      obtain ⟨-, hfl, hxl, hyl⟩ := hbound c hc
      simp only [Function.comp, hf]
      rw [zip_map_getD _ _ _ i (by rw [hxl]; exact hi) (by rw [hyl]; exact hi)]

/-- Witness for C2 (amended): one bound square cut over a one-row table
containing the point `(5, 5)`. -/
theorem C2_combined_mask_amended_witness :
    ∃ m, combinedMask
      [⟨[(1, 1), (9, 1), (9, 9), (1, 9)], none, some "x", some "y"⟩]
      [("x", [(5 : ℚ)]), ("y", [(5 : ℚ)])] = some m := by
  have hcols : ∀ c ∈ [(⟨[(1, 1), (9, 1), (9, 9), (1, 9)], none, some "x",
        some "y"⟩ : EditableEguiPolygon)],
      ∀ xc yc : String, c.selected_x_column = some xc →
        c.selected_y_column = some yc →
        (∃ xs, tableCol [("x", [(5 : ℚ)]), ("y", [(5 : ℚ)])] xc = some xs ∧
          xs.length = 1) ∧
        (∃ ys, tableCol [("x", [(5 : ℚ)]), ("y", [(5 : ℚ)])] yc = some ys ∧
          ys.length = 1) := by
    intro c hc xc yc hxc hyc
    rw [List.mem_singleton] at hc
    subst hc
    obtain rfl : "x" = xc := Option.some.inj hxc
    obtain rfl : "y" = yc := Option.some.inj hyc
    exact ⟨⟨[(5 : ℚ)], rfl, rfl⟩, ⟨[(5 : ℚ)], rfl, rfl⟩⟩
  obtain ⟨m, hm, -, -⟩ := C2_combined_mask_amended
    [⟨[(1, 1), (9, 1), (9, 9), (1, 9)], none, some "x", some "y"⟩]
    [("x", [(5 : ℚ)]), ("y", [(5 : ℚ)])] 1 hcols
  exact ⟨m, hm⟩

/-- C5 helper: `Nat.digitChar` is injective on decimal digits. -/
theorem digitChar_inj10 :
    ∀ a < 10, ∀ b < 10, Nat.digitChar a = Nat.digitChar b → a = b := by
  decide

/-- C5 helper: mapping `Nat.digitChar` over digit lists is injective. -/
theorem map_digitChar_inj :
    ∀ l1 l2 : List Nat, (∀ x ∈ l1, x < 10) → (∀ x ∈ l2, x < 10) →
      l1.map Nat.digitChar = l2.map Nat.digitChar → l1 = l2 := by
  intro l1
  induction l1 with
  | nil =>
    intro l2 _ _ h
    cases l2 with
    | nil => rfl
    | cons b l2 => simp at h
  | cons a l1 ih =>
    intro l2 h1 h2 h
    cases l2 with
    | nil => simp at h
    | cons b l2 =>
      simp only [List.map_cons, List.cons.injEq] at h
      have hab : a = b := digitChar_inj10 a (h1 a (List.mem_cons_self _ _)) b
        (h2 b (List.mem_cons_self _ _)) h.1
      rw [hab, ih l2 (fun x hx => h1 x (List.mem_cons_of_mem _ hx))
        (fun x hx => h2 x (List.mem_cons_of_mem _ hx)) h.2]

/-- C5 helper: the decimal rendering is injective. -/
theorem natToStr_inj : Function.Injective natToStr := by
  intro n m h
  unfold natToStr at h
  by_cases hn : n = 0 <;> by_cases hm : m = 0
  · rw [hn, hm]
  · exfalso
    rw [if_pos hn, if_neg hm] at h
    have hd : ['0'] = (Nat.digits 10 m).reverse.map Nat.digitChar :=
      congrArg String.data h
    have hone : (Nat.digits 10 m).reverse.map Nat.digitChar
        = [Nat.digitChar 0] := hd.symm
    have hdig : Nat.digits 10 m = [0] := by
      have := map_digitChar_inj ((Nat.digits 10 m).reverse) [0]
        (fun x hx => Nat.digits_lt_base (by norm_num) (List.mem_reverse.mp hx))
        (by intro x hx; rw [List.mem_singleton] at hx; omega) hone
      rw [← List.reverse_reverse (Nat.digits 10 m), this]
      rfl
    have := Nat.ofDigits_digits 10 m
    rw [hdig] at this
    simp [Nat.ofDigits] at this
    omega
  · exfalso
    rw [if_neg hn, if_pos hm] at h
    have hd : ['0'] = (Nat.digits 10 n).reverse.map Nat.digitChar :=
      congrArg String.data h.symm
    have hone : (Nat.digits 10 n).reverse.map Nat.digitChar
        = [Nat.digitChar 0] := hd.symm
    have hdig : Nat.digits 10 n = [0] := by
      have := map_digitChar_inj ((Nat.digits 10 n).reverse) [0]
        (fun x hx => Nat.digits_lt_base (by norm_num) (List.mem_reverse.mp hx))
        (by intro x hx; rw [List.mem_singleton] at hx; omega) hone
      rw [← List.reverse_reverse (Nat.digits 10 n), this]
      rfl
    have := Nat.ofDigits_digits 10 n
    rw [hdig] at this
    simp [Nat.ofDigits] at this
    omega
  · rw [if_neg hn, if_neg hm] at h
    have hd : (Nat.digits 10 n).reverse.map Nat.digitChar
        = (Nat.digits 10 m).reverse.map Nat.digitChar :=
      congrArg String.data h
    have hrev := map_digitChar_inj _ _
      (fun x hx => Nat.digits_lt_base (by norm_num) (List.mem_reverse.mp hx))
      (fun x hx => Nat.digits_lt_base (by norm_num) (List.mem_reverse.mp hx))
      hd
    have hdig : Nat.digits 10 n = Nat.digits 10 m :=
      List.reverse_inj.mp hrev
    calc n = Nat.ofDigits 10 (Nat.digits 10 n) :=
          (Nat.ofDigits_digits 10 n).symm
      _ = Nat.ofDigits 10 (Nat.digits 10 m) := by rw [hdig]
      _ = m := Nat.ofDigits_digits 10 m

/-- C5 helper: cut ids of distinct indices are distinct. -/
theorem cutId_inj : Function.Injective cutId := by
  intro n m h
  apply natToStr_inj
  apply String.ext
  have hd := congrArg String.data h
  unfold cutId at hd
  rw [String.data_append, String.data_append] at hd
  exact List.append_cancel_left hd

/-- C5 helper: the key set after a `HashMap::insert`. -/
theorem cutsInsert_keys (k : String) (v : EditableEguiPolygon) :
    ∀ l : Cuts, cutKeys (cutsInsert l k v)
      = if k ∈ cutKeys l then cutKeys l else cutKeys l ++ [k] := by
  intro l
  induction l with
  | nil => simp [cutsInsert, cutKeys]
  | cons hd tl ih =>
    obtain ⟨k', v'⟩ := hd
    by_cases hk : k' = k
    · subst hk
      simp [cutsInsert, cutKeys]
    · simp only [cutsInsert, if_neg hk, cutKeys, List.map_cons] at *
      rw [ih]
      by_cases hmem : k ∈ List.map Prod.fst tl
      · rw [if_pos hmem, if_pos (List.mem_cons_of_mem _ hmem)]
      · have hkk : ¬ k ∈ k' :: List.map Prod.fst tl := by
          rw [List.mem_cons]
          rintro (hc | hc)
          · exact hk hc.symm
          · exact hmem hc
        rw [if_neg hmem, if_neg hkk, List.cons_append]

/-- C5 helper: `HashMap::remove` only loses keys. -/
theorem cutsRemove_keys_sublist (k : String) :
    ∀ l : Cuts, List.Sublist (cutKeys (cutsRemove l k)) (cutKeys l) := by
  intro l
  induction l with
  | nil => simp [cutsRemove]
  | cons hd tl ih =>
    obtain ⟨k', v'⟩ := hd
    by_cases hk : k' = k
    · subst hk
      simp only [cutsRemove, if_pos rfl, cutKeys, List.map_cons]
      exact List.sublist_cons_self _ _
    · simp only [cutsRemove, if_neg hk, cutKeys, List.map_cons]
      exact List.Sublist.cons₂ k' ih

/-- C5 helper: an in-place value update does not touch the key set. -/
theorem cutsModify_keys (k : String)
    (f : EditableEguiPolygon → EditableEguiPolygon) :
    ∀ l : Cuts, cutKeys (cutsModify l k f) = cutKeys l := by
  intro l
  induction l with
  | nil => rfl
  | cons hd tl ih =>
    obtain ⟨k', v'⟩ := hd
    by_cases hk : k' = k
    · subst hk
      simp [cutsModify, cutKeys]
    · simp only [cutsModify, if_neg hk, cutKeys, List.map_cons] at *
      rw [ih]

/-- C5 helper: every UI operation preserves distinctness of the live
ids. -/
theorem apply_keys_nodup (op : CutOp) (h : CutHandler)
    (hnd : (cutKeys h.cuts).Nodup) :
    (cutKeys (CutOp.apply h op).cuts).Nodup := by
  cases op with
  | add =>
    simp only [CutOp.apply, CutHandler.add_new_cut]
    rw [cutsInsert_keys]
    split
    · exact hnd
    case isFalse hmem =>
      rw [List.nodup_append]
      exact ⟨hnd, List.nodup_singleton _, by simpa using hmem⟩
  | removeActive =>
    simp only [CutOp.apply, CutHandler.removeActiveCut]
    cases h.active_cut_id with
    | none => exact hnd
    | some id => exact (cutsRemove_keys_sublist id h.cuts).nodup hnd
  | setActive id => exact hnd
  | addVertex c =>
    simp only [CutOp.apply, CutHandler.addVertexToActive]
    cases h.active_cut_id with
    | none => exact hnd
    | some id =>
      rw [cutsModify_keys]
      exact hnd

/-- C5 helper: distinctness of live ids along any operation sequence. -/
theorem runOps_keys_nodup (ops : List CutOp) :
    ∀ h : CutHandler, (cutKeys h.cuts).Nodup →
      (cutKeys (h.runOps ops).cuts).Nodup := by
  induction ops with
  | nil => exact fun h hnd => hnd
  | cons op ops ih =>
    intro h hnd
    rw [CutHandler.runOps, List.foldl_cons, ← CutHandler.runOps]
    exact ih _ (apply_keys_nodup op h hnd)

/-- C5 helper: in an add-only session the key list is exactly
`cut_1 … cut_k` in insertion order. -/
theorem runOps_adds_keys (ops : List CutOp)
    (hadds : ∀ op ∈ ops, op = CutOp.add) :
    ∀ (h : CutHandler) (j : Nat),
      cutKeys h.cuts = (List.range j).map (fun i => cutId (i + 1)) →
      cutKeys (h.runOps ops).cuts
        = (List.range (j + ops.length)).map (fun i => cutId (i + 1)) := by
  induction ops with
  | nil =>
    intro h j hk
    simpa using hk
  | cons op ops ih =>
    intro h j hk
    have hop : op = CutOp.add := hadds op (List.mem_cons_self _ _)
    subst hop
    rw [CutHandler.runOps, List.foldl_cons, ← CutHandler.runOps]
    have hlen : h.cuts.length = j := by
      have hc := congrArg List.length hk
      simpa [cutKeys] using hc
    have hfresh : cutId (j + 1) ∉ cutKeys h.cuts := by
      rw [hk]
      intro hmem
      rw [List.mem_map] at hmem
      obtain ⟨i, hi, hcid⟩ := hmem
      rw [List.mem_range] at hi
      have := cutId_inj hcid
      omega
    have hkeys : cutKeys (CutOp.apply h CutOp.add).cuts
        = (List.range (j + 1)).map (fun i => cutId (i + 1)) := by
      simp only [CutOp.apply, CutHandler.add_new_cut, hlen]
      rw [cutsInsert_keys, if_neg hfresh, hk, List.range_succ,
        List.map_append, List.map_singleton]
    have hrec := ih (fun o ho => hadds o (List.mem_cons_of_mem _ ho))
      (CutOp.apply h CutOp.add) (j + 1) hkeys
    have harith : j + 1 + ops.length = j + (ops.length + 1) := by omega
    rw [hrec, List.length_cons, harith]

/-- C5 counterexample: the session `add, add, edit the active cut,
activate cut_1, remove it, add` ends with the final `add_new_cut`
computing the id `cut_{1+1} = "cut_2"` — the id of the live, edited cut —
and the `HashMap::insert` silently replaces that cut with a fresh empty
polygon (the cut count stays 1 and the vertex added at step 3 is lost):
ids are reused after a removal and an add can overwrite a live cut. -/
theorem C5_id_reuse_counterexample :
    (CutHandler.new.runOps [CutOp.add, CutOp.add, CutOp.addVertex (3, 4),
        CutOp.setActive (some "cut_1"), CutOp.removeActive]).cuts
      = [("cut_2", ⟨[(3, 4)], none, none, none⟩)] ∧
    (CutHandler.new.runOps [CutOp.add, CutOp.add, CutOp.addVertex (3, 4),
        CutOp.setActive (some "cut_1"), CutOp.removeActive, CutOp.add]).cuts
      = [("cut_2", EditableEguiPolygon.new)] := by
  have hc1 : cutId 1 = "cut_1" := by
    norm_num [cutId, natToStr]
    decide
  have hc2 : cutId 2 = "cut_2" := by
    norm_num [cutId, natToStr]
    decide
  constructor <;>
    simp [CutHandler.runOps, List.foldl, CutOp.apply, CutHandler.new,
      CutHandler.add_new_cut, CutHandler.removeActiveCut,
      CutHandler.setActive, CutHandler.addVertexToActive, cutsInsert,
      cutsRemove, cutsModify, EditableEguiPolygon.new,
      EditableEguiPolygon.add_new_vertex, hc1, hc2]

/-- C5 (amended): live cut ids are always unique (hash-map keys) under
any session of add / remove-active / set-active / vertex-edit
operations; and in a session of adds only, the ids are exactly
`cut_1 … cut_k` in order — fresh, never colliding, never replacing.
After a removal, however, the `cut_{count+1}` numbering can re-assign
the id of a removed or even live cut, silently replacing it (see the
counterexample). -/
theorem C5_ids_amended (ops : List CutOp) :
    (cutKeys (CutHandler.new.runOps ops).cuts).Nodup ∧
    ((∀ op ∈ ops, op = CutOp.add) →
      cutKeys (CutHandler.new.runOps ops).cuts
        = (List.range ops.length).map (fun i => cutId (i + 1))) := by
  constructor
  · exact runOps_keys_nodup ops CutHandler.new (by simp [CutHandler.new, cutKeys])
  · intro hadds
    have hrec := runOps_adds_keys ops hadds CutHandler.new 0
      (by simp [CutHandler.new, cutKeys])
    simpa using hrec

/-- Witness for C5 (amended): two adds yield the ids
`["cut_1", "cut_2"]`. -/
theorem C5_ids_amended_witness :
    cutKeys (CutHandler.new.runOps [CutOp.add, CutOp.add]).cuts
      = ["cut_1", "cut_2"] := by
  have h := (C5_ids_amended [CutOp.add, CutOp.add]).2 (by
    intro op hop
    rcases List.mem_cons.mp hop with hop1 | hop1
    · exact hop1
    · rw [List.mem_singleton] at hop1
      exact hop1)
  rw [h]
  have hc1 : cutId 1 = "cut_1" := by
    norm_num [cutId, natToStr]
    decide
  have hc2 : cutId 2 = "cut_2" := by
    norm_num [cutId, natToStr]
    decide
  norm_num [List.range_succ, hc1, hc2]

end SpsevbCebra
